import Mathlib

/-!
Verification of the nested-path get/set engine of `NgRFModelSetterService`
(src/ng-rforms/lib/model/model-setter.service.ts).

The model graph is a tree of keyed containers (objects), indexed containers
(arrays, with expando string properties and a `length` view, as in the host
language), and scalar leaves.  Fallible host operations (property access on
null/undefined, property assignment on primitives in strict mode, `slice` on
a non-array) are modelled with `Except Unit`; the public `getValue`/`setValue`
wrappers absorb every failure, mirroring the service's try/catch.
-/

/-- A host-language value: the untyped tree the service traverses.
Arrays carry both their element list and expando string properties (a key
that is not a canonical index is stored as a plain property, as in JS). -/
inductive JSValue where
  | vUndefined : JSValue
  | vNull : JSValue
  | vBool : Bool → JSValue
  | vNum : Int → JSValue
  | vStr : String → JSValue
  | vObj : List (String × JSValue) → JSValue
  | vArr : List JSValue → List (String × JSValue) → JSValue

open JSValue

/-- Host-language truthiness: `undefined`, `null`, `false`, `0` and the empty
string are falsy; every object and array is truthy. -/
def truthy : JSValue → Bool
  | vUndefined => false
  | vNull => false
  | vBool b => b
  | vNum n => n != 0
  | vStr s => s != ""
  | vObj _ => true
  | vArr _ _ => true

/-- Replace the first binding of `key`, or append one: the host semantics of
`obj[key] = v` on a plain object. -/
def setField : List (String × JSValue) → String → JSValue → List (String × JSValue)
  | [], key, v => [(key, v)]
  | (k, w) :: rest, key, v =>
      if k = key then (key, v) :: rest else (k, w) :: setField rest key v

/-- Decimal value of a digit list (used only on canonical index strings). -/
def decDigits (l : List Char) : Nat :=
  l.foldl (fun acc c => acc * 10 + (c.toNat - 48)) 0

/-- Whether a character list is the canonical decimal form of a natural
number: nonempty, all digits, no leading zero except for `"0"` itself. -/
def isCanonDec : List Char → Bool
  | [] => false
  | ['0'] => true
  | c :: rest => c != '0' && c.isDigit && rest.all Char.isDigit

/-- A string key is a canonical array index when it is the canonical decimal
form of a natural number; any other key addresses a plain property. -/
def canonIndex (key : String) : Option Nat :=
  if isCanonDec key.toList then some (decDigits key.toList) else none

/-- Write element `i` of an array, extending with `undefined` holes when `i`
is past the end (sparse-array assignment reads holes back as undefined). -/
def arrSetIdx : List JSValue → Nat → JSValue → List JSValue
  | [], 0, v => [v]
  | [], n + 1, v => vUndefined :: arrSetIdx [] n v
  | _ :: xs, 0, v => v :: xs
  | x :: xs, n + 1, v => x :: arrSetIdx xs n v

/-- Resize an array to length `n`: truncate, or pad with undefined holes. -/
def arrTrunc (elems : List JSValue) (n : Nat) : List JSValue :=
  elems.take n ++ List.replicate (n - elems.length) vUndefined

/-- Property read `obj[key]`: field lookup on objects; canonical-index,
`length` or expando lookup on arrays; character/`length` access on strings;
`undefined` on other primitives; a thrown TypeError on null/undefined. -/
def jsGet : JSValue → String → Except Unit JSValue
  | vObj fields, key => .ok ((fields.lookup key).getD vUndefined)
  | vArr elems props, key =>
      match canonIndex key with
      | some i => .ok (elems.getD i vUndefined)
      | none =>
          if key = "length" then .ok (vNum elems.length)
          else .ok ((props.lookup key).getD vUndefined)
  | vStr s, key =>
      match canonIndex key with
      | some i =>
          .ok (match s.toList.get? i with
               | some c => vStr (String.mk [c])
               | none => vUndefined)
      | none => if key = "length" then .ok (vNum s.length) else .ok vUndefined
  | vNum _, _ => .ok vUndefined
  | vBool _, _ => .ok vUndefined
  | vNull, _ => .error ()
  | vUndefined, _ => .error ()

/-- Property write `obj[key] = v`: field update on objects; canonical-index,
`length` or expando update on arrays; a thrown TypeError (strict mode) on
primitives, null and undefined. -/
def jsSet : JSValue → String → JSValue → Except Unit JSValue
  | vObj fields, key, v => .ok (vObj (setField fields key v))
  | vArr elems props, key, v =>
      match canonIndex key with
      | some i => .ok (vArr (arrSetIdx elems i v) props)
      | none =>
          if key = "length" then
            match v with
            | vNum n => if 0 ≤ n then .ok (vArr (arrTrunc elems n.toNat) props) else .error ()
            | _ => .error ()
          else .ok (vArr elems (setField props key v))
  | _, _, _ => .error ()

/-- The host `target.push(value)`: defined on arrays only. -/
def jsPush : JSValue → JSValue → Except Unit JSValue
  | vArr elems props, v => .ok (vArr (elems ++ [v]) props)
  | _, _ => .error ()

/-- The host `obj.slice(-1)[0]`: last element of an array (undefined when
empty), last character of a string, a thrown TypeError elsewhere. -/
def jsLast : JSValue → Except Unit JSValue
  | vArr elems _ => .ok (elems.getLast?.getD vUndefined)
  | vStr s =>
      .ok (match s.toList.getLast? with
           | some c => vStr (String.mk [c])
           | none => vUndefined)
  | _ => .error ()

/-- Replace the first occurrence of `c` by `d`, as the host
`String.prototype.replace` with plain-string arguments does. -/
def replaceFirstChar : List Char → Char → Char → List Char
  | [], _, _ => []
  | x :: xs, c, d => if x = c then d :: xs else x :: replaceFirstChar xs c d

/-- Remove the first occurrence of `c` (host `replace(c, '')`). -/
def removeFirstChar : List Char → Char → List Char
  | [], _ => []
  | x :: xs, c => if x = c then xs else x :: removeFirstChar xs c

/-- Split on a single-character separator, preserving empty pieces produced
by consecutive separators or a trailing separator, as the host split does. -/
def splitOnChar : List Char → Char → List String
  | [], _ => [""]
  | c :: cs, sep =>
      if c = sep then "" :: splitOnChar cs sep
      else
        match splitOnChar cs sep with
        | [] => [String.mk [c]]
        | s :: rest => String.mk (c :: s.toList) :: rest

/-- Source `generatePathPieces` (model-setter.service.ts:124-129): normalize
the first `[` to the separator, drop the first `]`, then split on the
separator.  The separator is the service's single-character separator
argument (default `'.'`). -/
def generatePathPieces (path : String) (sep : Char) : List String :=
  splitOnChar (removeFirstChar (replaceFirstChar path.toList '[' sep) ']') sep

example : generatePathPieces "a[0].b" '.' = ["a", "0", "b"] := by decide
example : generatePathPieces "list." '.' = ["list", ""] := by decide
example : generatePathPieces "a..b" '.' = ["a", "", "b"] := by decide
example : generatePathPieces "" '.' = [""] := by decide

/-- Source `piecesReducer` (model-setter.service.ts:52-54): on the empty key
take the last element (`obj.slice(-1)[0]`), otherwise index by the key. -/
def piecesReducer (obj : JSValue) (key : String) : Except Unit JSValue :=
  if key = "" then jsLast obj else jsGet obj key

/-- The read-side fold `pathPieces.reduce(this.piecesReducer, model)`,
with the first thrown error propagated. -/
def foldPieces : JSValue → List String → Except Unit JSValue
  | v, [] => .ok v
  | v, k :: ks =>
      match piecesReducer v k with
      | .ok v2 => foldPieces v2 ks
      | .error e => .error e

/-- Source `getValue` (model-setter.service.ts:31-42): guard on a null path
or a falsy model, fold the pieces over the model, normalize a falsy result
to null (`... || null`), and map any thrown error to null. -/
def getValue (path : Option String) (model : JSValue) (sep : Char) : JSValue :=
  match path with
  | none => vNull
  | some p =>
      if truthy model = false then vNull
      else
        match foldPieces model (generatePathPieces p sep) with
        | .ok v => if truthy v = true then v else vNull
        | .error _ => vNull

/-- Whether the host `parseInt(key, 10)` returns a number rather than NaN:
after optional leading whitespace and an optional sign there is at least
one decimal digit. -/
def parseIntNotNaN (key : String) : Bool :=
  match key.toList.dropWhile Char.isWhitespace with
  | '+' :: rest => (rest.headD ' ').isDigit
  | '-' :: rest => (rest.headD ' ').isDigit
  | l => (l.headD ' ').isDigit

/-- Source `isArrayKey` (model-setter.service.ts:116-118):
`key === '' || !isNaN(parseInt(key, 10))`. -/
def isArrayKey (key : String) : Bool :=
  key = "" || parseIntNotNaN key

/-- The look-ahead key consulted by `getTargetPropToSet`
(model-setter.service.ts:101): `pathPieces[i + 1] || pathPieces['finalKey']`.
The `||` falls through to the final key when the next piece is absent or is
the (falsy) empty string. -/
def lookAheadKey (rest : List String) (finalKey : String) : String :=
  match rest with
  | [] => finalKey
  | s :: _ => if s = "" then finalKey else s

/-- The container created for a missing intermediate
(model-setter.service.ts:103): an array when the look-ahead key is an array
key, an object otherwise.  (The source's `nextKey != null` guard never
fails: the final key is always a string.) -/
def vivify (rest : List String) (finalKey : String) : JSValue :=
  if isArrayKey (lookAheadKey rest finalKey) then vArr [] [] else vObj []

/-- The final write of `setValue` (model-setter.service.ts:83-87): push on
the empty final key, plain assignment otherwise. -/
def applyFinal (finalKey : String) (value : JSValue) (target : JSValue) : Except Unit JSValue :=
  if finalKey = "" then jsPush target value else jsSet target finalKey value

/-- The write-side traversal `pathPieces.reduce(this.getTargetPropToSet,
model)` followed by the final write (model-setter.service.ts:76-109), in
store-passing form.  Each reducer step reads `obj[key]`; a falsy value is
replaced by a freshly vivified container, attached before descending, and
the updated child is written back (in the source the child is mutated in
place through the same reference, which is the identity on tree models).
The Bool is true when no host error was thrown; on an error the partially
mutated store is kept, as the source's top-level catch keeps all mutations
made before the throw. -/
def setPieces (value : JSValue) (finalKey : String) : JSValue → List String → JSValue × Bool
  | target, [] =>
      match applyFinal finalKey value target with
      | .ok t => (t, true)
      | .error _ => (target, false)
  | obj, k :: rest =>
      match jsGet obj k with
      | .error _ => (obj, false)
      | .ok prop =>
          if truthy prop = true then
            let r := setPieces value finalKey prop rest
            match jsSet obj k r.1 with
            | .ok obj2 => (obj2, r.2)
            | .error _ => (obj, false)
          else
            match jsSet obj k (vivify rest finalKey) with
            | .error _ => (obj, false)
            | .ok obj1 =>
                let r := setPieces value finalKey (vivify rest finalKey) rest
                match jsSet obj1 k r.1 with
                | .ok obj2 => (obj2, r.2)
                | .error _ => (obj1, false)

/-- Source `setValue` (model-setter.service.ts:71-91): no-op on a falsy path
or model; otherwise pop the final key off the pieces, fold the remaining
pieces with the auto-vivifying reducer, and perform the final write.  The
result is the (possibly partially) mutated model; thrown errors are caught
at the top and only logged. -/
def setValue (path : String) (value : JSValue) (model : JSValue) (sep : Char) : JSValue :=
  if path = "" ∨ truthy model = false then model
  else
    let pieces := generatePathPieces path sep
    (setPieces value (pieces.getLastD "") model pieces.dropLast).1

/-- State-passing form of the read fold: the model store is threaded through
the traversal explicitly.  `piecesReducer` contains no assignment, so each
step returns the store unchanged; this definition makes that frame fact a
provable statement rather than a convention. -/
def foldPiecesT (store cur : JSValue) : List String → Except Unit (JSValue × JSValue)
  | [] => .ok (store, cur)
  | k :: ks =>
      match piecesReducer cur k with
      | .ok v2 => foldPiecesT store v2 ks
      | .error e => .error e

/-- State-passing form of `getValue`: returns the final store next to the
result. -/
def getValueT (path : Option String) (model : JSValue) (sep : Char) : JSValue × JSValue :=
  match path with
  | none => (model, vNull)
  | some p =>
      if truthy model = false then (model, vNull)
      else
        match foldPiecesT model model (generatePathPieces p sep) with
        | .ok (m2, v) => (m2, if truthy v = true then v else vNull)
        | .error _ => (model, vNull)

example : getValue (some "a.b") (vObj [("a", vObj [("b", vNum 7)])]) '.' = vNum 7 := rfl
example : setValue "a.b" (vNum 7) (vObj []) '.' = vObj [("a", vObj [("b", vNum 7)])] := rfl
example : setValue "a.0.b" (vStr "x") (vObj []) '.'
    = vObj [("a", vArr [vObj [("b", vStr "x")]] [])] := rfl
example : setValue "list." (vNum 5) (vObj [("list", vArr [vNum 1, vNum 2] [])]) '.'
    = vObj [("list", vArr [vNum 1, vNum 2, vNum 5] [])] := rfl
example : getValue (some "list.") (vObj [("list", vArr [vNum 1, vNum 2, vNum 3] [])]) '.'
    = vNum 3 := rfl
example : setValue "a..b" (vNum 1) (vObj []) '.'
    = vObj [("a", vObj [("", vObj [("b", vNum 1)])])] := rfl
example : setValue "a.-1" (vNum 1) (vObj []) '.'
    = vObj [("a", vArr [] [("-1", vNum 1)])] := rfl
example : setValue "a" (vNum 0) (vObj []) '.' = vObj [("a", vNum 0)] := rfl

/-! ### Association-list and array lemmas -/

lemma lookup_setField_self (fs : List (String × JSValue)) (k : String) (v : JSValue) :
    (setField fs k v).lookup k = some v := by
  induction fs with
  | nil => simp [setField, List.lookup]
  | cons p t ih =>
      obtain ⟨a, b⟩ := p
      by_cases hak : a = k
      · subst hak; simp [setField, List.lookup]
      · have hba : (k == a) = false := beq_eq_false_iff_ne.mpr (Ne.symm hak)
        simp [setField, hak, List.lookup, hba, ih]

lemma lookup_setField_ne (fs : List (String × JSValue)) (k : String) (v : JSValue)
    (k' : String) (h : k' ≠ k) : (setField fs k v).lookup k' = fs.lookup k' := by
  induction fs with
  | nil =>
      have hba : (k' == k) = false := beq_eq_false_iff_ne.mpr h
      simp [setField, List.lookup, hba]
  | cons p t ih =>
      obtain ⟨a, b⟩ := p
      by_cases hak : a = k
      · subst hak
        have hba : (k' == a) = false := beq_eq_false_iff_ne.mpr h
        simp [setField, List.lookup, hba, ih]
      · simp [setField, hak, List.lookup, ih]

lemma setField_setField (fs : List (String × JSValue)) (k : String) (v w : JSValue) :
    setField (setField fs k v) k w = setField fs k w := by
  induction fs with
  | nil => simp [setField]
  | cons p t ih =>
      obtain ⟨a, b⟩ := p
      by_cases hak : a = k
      · subst hak; simp [setField]
      · simp [setField, hak, ih]

lemma arrSetIdx_get? (l : List JSValue) (i : Nat) (v : JSValue) :
    (arrSetIdx l i v)[i]? = some v := by
  induction i generalizing l with
  | zero => cases l <;> simp [arrSetIdx]
  | succ n ih => cases l <;> simp [arrSetIdx, ih]

lemma arrSetIdx_getD (l : List JSValue) (i : Nat) (v : JSValue) :
    (arrSetIdx l i v).getD i vUndefined = v := by
  simp [List.getD, arrSetIdx_get?]

lemma isArrayKey_ne_length {k : String} (h : isArrayKey k = true) : k ≠ "length" := by
  intro he
  rw [he] at h
  exact absurd h (by decide)

/-- Writing `v` at key `k` into a keyed container, or into an indexed
container under an array key, succeeds, and reading `k` back yields exactly
`v`; the container kind is preserved and the result is truthy. -/
lemma jsSet_get_ok (c : JSValue) (k : String) (v : JSValue)
    (hc : (∃ fs, c = vObj fs) ∨ (∃ es ps, c = vArr es ps ∧ isArrayKey k = true)) :
    ∃ c2, jsSet c k v = .ok c2 ∧ jsGet c2 k = .ok v ∧ truthy c2 = true ∧
      ((∃ fs, c2 = vObj fs) ∨ (∃ es ps, c2 = vArr es ps ∧ isArrayKey k = true)) := by
  rcases hc with ⟨fs, rfl⟩ | ⟨es, ps, rfl, hak⟩
  · exact ⟨vObj (setField fs k v), rfl, by simp [jsGet, lookup_setField_self],
      rfl, Or.inl ⟨_, rfl⟩⟩
  · have hkl : k ≠ "length" := isArrayKey_ne_length hak
    cases hci : canonIndex k with
    | some i =>
        refine ⟨vArr (arrSetIdx es i v) ps, ?_, ?_, rfl, Or.inr ⟨_, _, rfl, hak⟩⟩
        · simp [jsSet, hci]
        · simp [jsGet, hci, arrSetIdx_get?]
    | none =>
        refine ⟨vArr es (setField ps k v), ?_, ?_, rfl, Or.inr ⟨_, _, rfl, hak⟩⟩
        · simp [jsSet, hci, hkl]
        · simp [jsGet, hci, hkl, lookup_setField_self]

/-- Reading any key off a freshly created empty container succeeds and
yields a falsy value (`undefined`, or `0` for an empty array's length). -/
lemma jsGet_empty_falsy (c : JSValue) (k : String)
    (hc : c = vObj [] ∨ c = vArr [] []) :
    ∃ u, jsGet c k = .ok u ∧ truthy u = false := by
  rcases hc with rfl | rfl
  · exact ⟨vUndefined, by simp [jsGet, List.lookup], rfl⟩
  · cases hci : canonIndex k with
    | some i => exact ⟨vUndefined, by simp [jsGet, hci], rfl⟩
    | none =>
        by_cases hkl : k = "length"
        · subst hkl
          exact ⟨vNum 0, by simp [jsGet, hci], rfl⟩
        · exact ⟨vUndefined, by simp [jsGet, hci, hkl, List.lookup], rfl⟩

lemma splitOnChar_ne_nil (l : List Char) (sep : Char) : splitOnChar l sep ≠ [] := by
  cases l with
  | nil => simp [splitOnChar]
  | cons c cs =>
      by_cases h : c = sep
      · simp [splitOnChar, h]
      · simp only [splitOnChar, if_neg h]
        cases splitOnChar cs sep <;> simp

lemma generatePathPieces_ne_nil (p : String) (sep : Char) :
    generatePathPieces p sep ≠ [] := splitOnChar_ne_nil _ _

lemma dropLast_append_getLastD (l : List String) (h : l ≠ []) :
    l.dropLast ++ [l.getLastD ""] = l := by
  rw [List.getLastD_eq_getLast?, List.getLast?_eq_getLast l h]
  exact List.dropLast_concat_getLast h

/-- Core round-trip invariant: starting from a fresh empty container whose
kind matches the first key to be written (the caller's model, a keyed
container, always qualifies), writing a value along non-empty pieces
succeeds and the read fold over the same pieces recovers exactly the value
written. -/
lemma setPieces_foldPieces (value : JSValue) :
    ∀ (ks : List String) (fk : String) (c : JSValue),
      fk ≠ "" → (∀ k ∈ ks, k ≠ "") →
      (c = vObj [] ∨ (c = vArr [] [] ∧ isArrayKey ((ks ++ [fk]).headD "") = true)) →
      ∃ c2, setPieces value fk c ks = (c2, true) ∧
        foldPieces c2 (ks ++ [fk]) = .ok value ∧ truthy c2 = true := by
  intro ks
  induction ks with
  | nil =>
      intro fk c hfk _ hinv
      have hc : (∃ fs, c = vObj fs) ∨ (∃ es ps, c = vArr es ps ∧ isArrayKey fk = true) := by
        rcases hinv with rfl | ⟨rfl, hak⟩
        · exact Or.inl ⟨[], rfl⟩
        · simp only [List.nil_append, List.headD_cons] at hak
          exact Or.inr ⟨[], [], rfl, hak⟩
      obtain ⟨c2, hset, hget, htr, _⟩ := jsSet_get_ok c fk value hc
      refine ⟨c2, ?_, ?_, htr⟩
      · simp [setPieces, applyFinal, hfk, hset]
      · simp [foldPieces, piecesReducer, hfk, hget]
  | cons k rest ih =>
      intro fk c hfk hks hinv
      have hk : k ≠ "" := hks k (by simp)
      have hrest : ∀ x ∈ rest, x ≠ "" := fun x hx => hks x (by simp [hx])
      have hempty : c = vObj [] ∨ c = vArr [] [] := by
        rcases hinv with rfl | ⟨rfl, _⟩
        · exact Or.inl rfl
        · exact Or.inr rfl
      obtain ⟨u, hu, hut⟩ := jsGet_empty_falsy c k hempty
      have hc1 : (∃ fs, c = vObj fs) ∨ (∃ es ps, c = vArr es ps ∧ isArrayKey k = true) := by
        rcases hinv with rfl | ⟨rfl, hak⟩
        · exact Or.inl ⟨[], rfl⟩
        · simp only [List.cons_append, List.headD_cons] at hak
          exact Or.inr ⟨[], [], rfl, hak⟩
      obtain ⟨c1, hset1, _, _, hkind1⟩ := jsSet_get_ok c k (vivify rest fk) hc1
      have hla : lookAheadKey rest fk = (rest ++ [fk]).headD "" := by
        cases rest with
        | nil => rfl
        | cons s t => simp [lookAheadKey, hrest s (by simp)]
      have hfresh : vivify rest fk = vObj [] ∨
          (vivify rest fk = vArr [] [] ∧ isArrayKey ((rest ++ [fk]).headD "") = true) := by
        by_cases hak : isArrayKey (lookAheadKey rest fk) = true
        · exact Or.inr ⟨by simp [vivify, hak], hla ▸ hak⟩
        · rw [Bool.not_eq_true] at hak
          exact Or.inl (by simp [vivify, hak])
      obtain ⟨c2, hsp, hfold, _⟩ := ih fk (vivify rest fk) hfk hrest hfresh
      obtain ⟨c3, hset2, hget3, htr3, _⟩ := jsSet_get_ok c1 k c2 hkind1
      refine ⟨c3, ?_, ?_, htr3⟩
      · simp [setPieces, hu, hut, hset1, hsp, hset2]
      · simp [foldPieces, piecesReducer, hk, hget3, hfold]

/-- C1.  Round-trip: for every path whose parsed steps are all non-empty
keys, and every truthy value, writing the value into the empty object model
with `setValue` and reading the same path back with `getValue` returns
exactly the value written. -/
theorem C1_roundtrip (p : String) (value : JSValue)
    (hv : truthy value = true)
    (hp : ∀ k ∈ generatePathPieces p '.', k ≠ "") :
    getValue (some p) (setValue p value (vObj []) '.') '.' = value := by
  have hne : generatePathPieces p '.' ≠ [] := generatePathPieces_ne_nil p '.'
  have hdec := dropLast_append_getLastD (generatePathPieces p '.') hne
  have hfk : (generatePathPieces p '.').getLastD "" ≠ "" := by
    refine hp _ ?_
    rw [← hdec]
    exact List.mem_append_right _ (by simp)
  have hks : ∀ k ∈ (generatePathPieces p '.').dropLast, k ≠ "" := by
    intro k hkmem
    refine hp _ ?_
    rw [← hdec]
    exact List.mem_append_left _ hkmem
  have hpne : p ≠ "" := by
    intro he
    subst he
    exact hp "" (by decide) rfl
  obtain ⟨c2, hsp, hfold, htr⟩ :=
    setPieces_foldPieces value (generatePathPieces p '.').dropLast
      ((generatePathPieces p '.').getLastD "") (vObj []) hfk hks (Or.inl rfl)
  rw [hdec] at hfold
  have hsv : setValue p value (vObj []) '.' = c2 := by
    unfold setValue
    rw [if_neg (by simp [hpne, truthy])]
    show (setPieces value ((generatePathPieces p '.').getLastD "") (vObj [])
        (generatePathPieces p '.').dropLast).1 = c2
    rw [hsp]
  rw [hsv]
  simp [getValue, htr, hfold, hv]

/-- C1 witness: the round-trip theorem at path `"a.b"` and value `7`. -/
theorem C1_roundtrip_witness :
    getValue (some "a.b") (setValue "a.b" (vNum 7) (vObj []) '.') '.' = vNum 7 :=
  C1_roundtrip "a.b" (vNum 7) (by decide) (by decide)

/-- A traversal that starts from a falsy model can only resolve to a falsy
value: null/undefined throw on dereference, and every read off a primitive
yields `undefined`, an empty character sequence or a zero length. -/
lemma foldPieces_falsy (ks : List String) :
    ∀ (m v : JSValue), truthy m = false → foldPieces m ks = .ok v → truthy v = false := by
  induction ks with
  | nil =>
      intro m v hm hf
      simp only [foldPieces] at hf
      cases hf
      exact hm
  | cons k rest ih =>
      intro m v hm hf
      simp only [foldPieces] at hf
      cases m with
      | vUndefined => simp [piecesReducer, jsGet, jsLast] at hf
      | vNull => simp [piecesReducer, jsGet, jsLast] at hf
      | vBool b =>
          by_cases hk : k = ""
          · simp [piecesReducer, hk, jsLast] at hf
          · simp only [piecesReducer, hk, if_neg hk, jsGet] at hf
            exact ih vUndefined v rfl hf
      | vNum n =>
          by_cases hk : k = ""
          · simp [piecesReducer, hk, jsLast] at hf
          · simp only [piecesReducer, hk, if_neg hk, jsGet] at hf
            exact ih vUndefined v rfl hf
      | vStr s =>
          have hs : s = "" := by
            simpa [truthy] using hm
          subst hs
          by_cases hk : k = ""
          · simp only [piecesReducer, hk, if_pos rfl, jsLast] at hf
            exact ih vUndefined v rfl (by simpa using hf)
          · simp only [piecesReducer, hk, if_neg hk, jsGet] at hf
            cases hci : canonIndex k with
            | some i =>
                rw [hci] at hf
                exact ih vUndefined v rfl (by simpa using hf)
            | none =>
                rw [hci] at hf
                by_cases hkl : k = "length"
                · rw [if_pos hkl] at hf
                  exact ih (vNum 0) v rfl (by simpa using hf)
                · rw [if_neg hkl] at hf
                  exact ih vUndefined v rfl hf
      | vObj fields => simp [truthy] at hm
      | vArr elems props => simp [truthy] at hm

/-- C2.  getValue characterization: whenever the step fold resolves the path
to an existing value `v`, `getValue` returns `v` when `v` is truthy and
null when `v` is falsy, so a stored falsy value is indistinguishable from
not-found. -/
theorem C2_getValue_characterization (p : String) (m v : JSValue) (sep : Char)
    (hres : foldPieces m (generatePathPieces p sep) = .ok v) :
    getValue (some p) m sep = if truthy v = true then v else vNull := by
  by_cases hm : truthy m = true
  · simp [getValue, hm, hres]
  · rw [Bool.not_eq_true] at hm
    have hv := foldPieces_falsy (generatePathPieces p sep) m v hm hres
    simp [getValue, hm, hres, hv]

/-- C2 witness: path `"a"` resolving to the truthy `7` yields `7`, and path
`"b"` resolving to the stored falsy `0` yields null. -/
theorem C2_getValue_characterization_witness :
    getValue (some "a") (vObj [("a", vNum 7), ("b", vNum 0)]) '.' = vNum 7 ∧
    getValue (some "b") (vObj [("a", vNum 7), ("b", vNum 0)]) '.' = vNull := by
  constructor
  · have h := C2_getValue_characterization "a" (vObj [("a", vNum 7), ("b", vNum 0)]) (vNum 7)
      '.' rfl
    simpa using h
  · have h := C2_getValue_characterization "b" (vObj [("a", vNum 7), ("b", vNum 0)]) (vNum 0)
      '.' rfl
    simpa using h

/-- C3 counterexample: `setValue('a', 0, {})` stores the number `0` itself;
the stored value is not the absent marker null as the claim states.  The
`|| null` in the source applies to the traversal target, not to the value,
and no normalization of `value` happens before `targetProp[finalKey] =
value`. -/
theorem C3_counterexample :
    setValue "a" (vNum 0) (vObj []) '.' = vObj [("a", vNum 0)] ∧
    setValue "a" (vNum 0) (vObj []) '.' ≠ vObj [("a", vNull)] := by
  refine ⟨rfl, ?_⟩
  intro h
  have h2 : vObj [("a", vNum 0)] = vObj [("a", vNull)] := h
  simp at h2

/-- C3 amended: setValue stores the value argument unchanged, with no
falsy-to-null normalization at write time; `setValue('a', 0, {})` stores
`0` and `setValue('a', false, {})` stores `false`.  (The `newValue || null`
normalization happens in the calling directive, outside this service.) -/
theorem C3_store_raw :
    (∀ v : JSValue, setValue "a" v (vObj []) '.' = vObj [("a", v)]) ∧
    setValue "a" (vNum 0) (vObj []) '.' = vObj [("a", vNum 0)] ∧
    setValue "a" (vBool false) (vObj []) '.' = vObj [("a", vBool false)] :=
  ⟨fun _ => rfl, rfl, rfl⟩

/-- C4.  Error absorption: `setValue` on a falsy path or falsy model is a
no-op returning the model unchanged; `getValue` returns null on a null
path, on a falsy model, and whenever the traversal throws internally.
Both public operations are total functions of their inputs: every internal
failure is absorbed, never surfaced. -/
theorem C4_error_absorption :
    (∀ (value model : JSValue) (sep : Char), setValue "" value model sep = model) ∧
    (∀ (path : String) (value model : JSValue) (sep : Char), truthy model = false →
        setValue path value model sep = model) ∧
    (∀ (model : JSValue) (sep : Char), getValue none model sep = vNull) ∧
    (∀ (p : String) (model : JSValue) (sep : Char), truthy model = false →
        getValue (some p) model sep = vNull) ∧
    (∀ (p : String) (model : JSValue) (sep : Char),
        foldPieces model (generatePathPieces p sep) = .error () →
        getValue (some p) model sep = vNull) := by
  refine ⟨?_, ?_, ?_, ?_, ?_⟩
  · intro value model sep
    simp [setValue]
  · intro path value model sep h
    simp [setValue, h]
  · intro model sep
    rfl
  · intro p model sep h
    simp [getValue, h]
  · intro p model sep h
    by_cases hm : truthy model = true
    · simp [getValue, hm, h]
    · rw [Bool.not_eq_true] at hm
      simp [getValue, hm]

/-- C4 witness: the guards and the error absorption at concrete inputs —
empty path, null model, and a traversal that dereferences null. -/
theorem C4_error_absorption_witness :
    setValue "" (vNum 1) (vObj [("x", vNum 2)]) '.' = vObj [("x", vNum 2)] ∧
    setValue "a" (vNum 1) vNull '.' = vNull ∧
    getValue (some "a.b") (vObj [("a", vNull)]) '.' = vNull :=
  ⟨C4_error_absorption.1 (vNum 1) (vObj [("x", vNum 2)]) '.',
   C4_error_absorption.2.1 "a" (vNum 1) vNull '.' rfl,
   C4_error_absorption.2.2.2.2 "a.b" (vObj [("a", vNull)]) '.' rfl⟩

/-- C5.  Empty final step: `setValue` appends to the indexed container
reached by the non-final steps (`setValue('list.', 5, {list: [1,2]})` gives
`[1,2,5]`), and `getValue` reads that container's last element
(`getValue('list.', {list: [1,2,3]})` is `3`); in general the final write
on the empty key is a push and the read on the empty key is last-element
access. -/
theorem C5_empty_step_append_last :
    setValue "list." (vNum 5) (vObj [("list", vArr [vNum 1, vNum 2] [])]) '.'
      = vObj [("list", vArr [vNum 1, vNum 2, vNum 5] [])] ∧
    getValue (some "list.") (vObj [("list", vArr [vNum 1, vNum 2, vNum 3] [])]) '.'
      = vNum 3 ∧
    (∀ (elems : List JSValue) (props : List (String × JSValue)) (value : JSValue),
        applyFinal "" value (vArr elems props) = .ok (vArr (elems ++ [value]) props)) ∧
    (∀ (elems : List JSValue) (props : List (String × JSValue)),
        piecesReducer (vArr elems props) "" = .ok (elems.getLast?.getD vUndefined)) :=
  ⟨rfl, rfl, fun _ _ _ => rfl, fun _ _ => rfl⟩

lemma arrTrunc_length (l : List JSValue) (n : Nat) : (arrTrunc l n).length = n := by
  simp [arrTrunc]
  omega

/-- Any successful property write can be read back: `jsSet c k v = ok c2`
implies `jsGet c2 k = ok v` (for a `length` write the read recomputes the
new length, which equals the written number). -/
lemma jsSet_ok_get (c : JSValue) (k : String) (v c2 : JSValue)
    (h : jsSet c k v = .ok c2) : jsGet c2 k = .ok v := by
  cases c with
  | vObj fs =>
      simp only [jsSet] at h
      cases h
      simp [jsGet, lookup_setField_self]
  | vArr es ps =>
      cases hci : canonIndex k with
      | some i =>
          simp only [jsSet, hci] at h
          cases h
          simp [jsGet, hci, arrSetIdx_get?]
      | none =>
          by_cases hkl : k = "length"
          · subst hkl
            cases v with
            | vNum n =>
                by_cases hn : (0 : Int) ≤ n
                · simp [jsSet, hci, hn] at h
                  rw [← h]
                  simp [jsGet, hci, arrTrunc_length, Int.toNat_of_nonneg hn]
                · simp [jsSet, hci, hn] at h
            | vUndefined => simp [jsSet, hci] at h
            | vNull => simp [jsSet, hci] at h
            | vBool b => simp [jsSet, hci] at h
            | vStr s => simp [jsSet, hci] at h
            | vObj fs => simp [jsSet, hci] at h
            | vArr es2 ps2 => simp [jsSet, hci] at h
          · simp only [jsSet, hci, if_neg hkl] at h
            cases h
            simp [jsGet, hci, hkl, lookup_setField_self]
  | vUndefined => cases h
  | vNull => cases h
  | vBool b => cases h
  | vNum n => cases h
  | vStr s => cases h

/-- C6 counterexample: for the path `a..b` (equivalently `a[].b`) the step
after `a` is the empty step, which exists in the non-final sequence and
satisfies `isArrayKey`; the claim therefore requires an indexed container
at `a`, but the code's `pathPieces[i + 1] || finalKey` skips the falsy
empty string, consults the final key `b`, and creates a keyed container. -/
theorem C6_counterexample :
    setValue "a..b" (vNum 1) (vObj []) '.'
      = vObj [("a", vObj [("", vObj [("b", vNum 1)])])] ∧
    generatePathPieces "a..b" '.' = ["a", "", "b"] ∧
    isArrayKey "" = true :=
  ⟨rfl, by decide, by decide⟩

/-- One write step over a keyed container with no binding at the traversed
key: a container vivified from the look-ahead key is attached, recursively
written into, and stored at the key. -/
lemma setPieces_miss_eq (value : JSValue) (fk k : String) (rest : List String)
    (fs : List (String × JSValue)) (hmiss : fs.lookup k = none) :
    setPieces value fk (vObj fs) (k :: rest)
      = (vObj (setField fs k (setPieces value fk (vivify rest fk) rest).1),
         (setPieces value fk (vivify rest fk) rest).2) := by
  have hg : jsGet (vObj fs) k = .ok vUndefined := by simp [jsGet, hmiss]
  simp only [setPieces, hg, truthy]
  simp only [Bool.false_eq_true, if_false, jsSet, setField_setField]

/-- C6 amended: during a write, when the value at a non-final step is
missing, the look-ahead key is the step at the next index if it exists AND
is non-empty (the source's `||` falls through on the falsy empty string),
otherwise the remembered final key; the created intermediate is an indexed
container exactly when `isArrayKey` holds of that look-ahead key. -/
theorem C6_lookahead (value : JSValue) (fk k : String) (rest : List String)
    (fs : List (String × JSValue)) (hmiss : fs.lookup k = none) :
    setPieces value fk (vObj fs) (k :: rest)
      = (vObj (setField fs k (setPieces value fk (vivify rest fk) rest).1),
         (setPieces value fk (vivify rest fk) rest).2) ∧
    vivify rest fk
      = (if isArrayKey (match rest with
            | [] => fk
            | s :: _ => if s = "" then fk else s) = true
         then vArr [] [] else vObj []) := by
  constructor
  · exact setPieces_miss_eq value fk k rest fs hmiss
  · simp [vivify, lookAheadKey, isArrayKey]

/-- C6 witness: the amended look-ahead rule at the concrete input
`setValue('a..b', 1, {})`: the non-final steps are `a` and the empty step,
the look-ahead at `a` is the final key `b`, and a keyed container is
attached at `a`. -/
theorem C6_lookahead_witness :
    setPieces (vNum 1) "b" (vObj []) ["a", ""]
      = (vObj (setField [] "a" (setPieces (vNum 1) "b" (vivify [""] "b") [""]).1),
         (setPieces (vNum 1) "b" (vivify [""] "b") [""]).2) ∧
    vivify [""] "b" = vObj [] :=
  ⟨(C6_lookahead (vNum 1) "b" "a" [""] [] rfl).1, rfl⟩

/-- C7 counterexample: for the write `setValue('a.-1', 1, {})` the next step
after `a` is `'-1'`, a negative integer token; the claim requires a keyed
container at `a`, but `parseInt('-1', 10)` is `-1`, not NaN, so the code
creates an indexed container (the value then lands in an expando property
of the array, since `-1` is not a canonical index). -/
theorem C7_counterexample :
    setValue "a.-1" (vNum 1) (vObj []) '.' = vObj [("a", vArr [] [("-1", vNum 1)])] ∧
    isArrayKey "-1" = true :=
  ⟨rfl, by decide⟩

/-- C7 amended: the auto-vivified intermediate is an indexed container
exactly when the next key is the empty step or `parseInt(key, 10)` parses
(optional leading whitespace, optional sign, at least one digit) — which
accepts negative integer tokens such as `'-1'`; only keys with no leading
integer at all produce a keyed container. -/
theorem C7_signed_inference (value : JSValue) (fk k : String)
    (fs : List (String × JSValue)) (hmiss : fs.lookup k = none) :
    (parseIntNotNaN fk = true →
      ∃ es ps, setPieces value fk (vObj fs) [k]
        = (vObj (setField fs k (vArr es ps)), true)) ∧
    (fk ≠ "" → parseIntNotNaN fk = false →
      ∃ gs, setPieces value fk (vObj fs) [k]
        = (vObj (setField fs k (vObj gs)), true)) ∧
    parseIntNotNaN "-1" = true := by
  have hmain := setPieces_miss_eq value fk k [] fs hmiss
  refine ⟨?_, ?_, by decide⟩
  · intro hpi
    have hfk : fk ≠ "" := by
      intro he
      rw [he] at hpi
      exact absurd hpi (by decide)
    have hak : isArrayKey fk = true := by simp [isArrayKey, hpi]
    have hkl : fk ≠ "length" := isArrayKey_ne_length hak
    have hviv : vivify [] fk = vArr [] [] := by simp [vivify, lookAheadKey, hak]
    rw [hviv] at hmain
    cases hci : canonIndex fk with
    | some i =>
        refine ⟨arrSetIdx [] i value, [], ?_⟩
        rw [hmain]
        simp [setPieces, applyFinal, hfk, jsSet, hci]
    | none =>
        refine ⟨[], setField [] fk value, ?_⟩
        rw [hmain]
        simp [setPieces, applyFinal, hfk, jsSet, hci, hkl]
  · intro hfk hpi
    have hak : isArrayKey fk = false := by
      simp [isArrayKey, hpi, hfk]
    have hviv : vivify [] fk = vObj [] := by simp [vivify, lookAheadKey, hak]
    rw [hviv] at hmain
    refine ⟨setField [] fk value, ?_⟩
    rw [hmain]
    simp [setPieces, applyFinal, hfk, jsSet]

/-- C7 witness: the amended inference at the concrete final key `'-1'`: an
indexed container is vivified at `a`. -/
theorem C7_signed_inference_witness :
    ∃ es ps, setPieces (vNum 1) "-1" (vObj []) ["a"]
      = (vObj (setField [] "a" (vArr es ps)), true) :=
  (C7_signed_inference (vNum 1) "-1" "a" [] rfl).1 (by decide)

lemma foldPiecesT_spec (store : JSValue) (ks : List String) :
    ∀ cur, foldPiecesT store cur ks = (foldPieces cur ks).map (fun v => (store, v)) := by
  induction ks with
  | nil => intro cur; rfl
  | cons k rest ih =>
      intro cur
      simp only [foldPiecesT, foldPieces]
      cases piecesReducer cur k with
      | ok v2 => simpa using ih v2
      | error e => rfl

/-- C9.  getValue is read-only: in the state-passing form of the read
traversal, where the model store is threaded explicitly through every step,
the store that comes out is the store that went in — every step is a pure
read (property access or last-element access) — and the computed result
agrees with `getValue`. -/
theorem C9_getValue_readonly (p : Option String) (m : JSValue) (sep : Char) :
    (getValueT p m sep).1 = m ∧ (getValueT p m sep).2 = getValue p m sep := by
  cases p with
  | none => exact ⟨rfl, rfl⟩
  | some q =>
      by_cases hm : truthy m = false
      · constructor <;> simp [getValueT, getValue, hm]
      · have hfold := foldPiecesT_spec m (generatePathPieces q sep) m
        cases hres : foldPieces m (generatePathPieces q sep) with
        | ok v =>
            rw [hres] at hfold
            constructor <;> simp [getValueT, getValue, hm, hfold, hres, Except.map]
        | error e =>
            rw [hres] at hfold
            constructor <;> simp [getValueT, getValue, hm, hfold, hres, Except.map]

/-- C10.  No overwrite of existing truthy values: in a successful write
step, when the current value at a non-final step is truthy it is kept and
recursively written into (the entry at that key afterwards is exactly the
recursive update of the old value, never a fresh container); a fresh
container is attached only when the current value is falsy; and on a keyed
container every key other than the traversed one reads back unchanged. -/
theorem C10_no_overwrite (value : JSValue) (fk k : String) (rest : List String)
    (obj prop obj2 : JSValue)
    (hget : jsGet obj k = .ok prop)
    (hrun : setPieces value fk obj (k :: rest) = (obj2, true)) :
    (truthy prop = true →
      jsGet obj2 k = .ok (setPieces value fk prop rest).1 ∧
      (setPieces value fk prop rest).2 = true) ∧
    (truthy prop = false →
      jsGet obj2 k = .ok (setPieces value fk (vivify rest fk) rest).1 ∧
      (setPieces value fk (vivify rest fk) rest).2 = true) ∧
    (∀ fs, obj = vObj fs → ∀ k2, k2 ≠ k → jsGet obj2 k2 = jsGet obj k2) := by
  simp only [setPieces, hget] at hrun
  by_cases htp : truthy prop = true
  · rw [if_pos htp] at hrun
    cases hset : jsSet obj k (setPieces value fk prop rest).1 with
    | error e =>
        rw [hset] at hrun
        simp at hrun
    | ok o =>
        rw [hset] at hrun
        simp only [Prod.mk.injEq] at hrun
        obtain ⟨ho, hok⟩ := hrun
        subst ho
        refine ⟨fun _ => ⟨jsSet_ok_get obj k _ _ hset, hok⟩,
          fun hf => absurd htp (by simp [hf]), ?_⟩
        intro fs hobj k2 hk2
        subst hobj
        simp only [jsSet] at hset
        injection hset with h1
        subst h1
        simp [jsGet, lookup_setField_ne _ _ _ _ hk2]
  · rw [if_neg htp] at hrun
    rw [Bool.not_eq_true] at htp
    cases hset1 : jsSet obj k (vivify rest fk) with
    | error e =>
        rw [hset1] at hrun
        simp at hrun
    | ok obj1 =>
        rw [hset1] at hrun
        dsimp only at hrun
        cases hset2 : jsSet obj1 k (setPieces value fk (vivify rest fk) rest).1 with
        | error e =>
            rw [hset2] at hrun
            simp at hrun
        | ok o2 =>
            rw [hset2] at hrun
            simp only [Prod.mk.injEq] at hrun
            obtain ⟨ho, hok⟩ := hrun
            subst ho
            refine ⟨fun ht => absurd ht (by simp [htp]),
              fun _ => ⟨jsSet_ok_get obj1 k _ _ hset2, hok⟩, ?_⟩
            intro fs hobj k2 hk2
            subst hobj
            simp only [jsSet] at hset1
            injection hset1 with h1
            subst h1
            simp only [jsSet] at hset2
            injection hset2 with h2
            subst h2
            simp [jsGet, lookup_setField_ne _ _ _ _ hk2]

/-- C10 witness: writing `b = 1` through the existing truthy entry at `a`
keeps the old container (with its `x = 9`) and only extends it. -/
theorem C10_no_overwrite_witness :
    jsGet (vObj [("a", vObj [("x", vNum 9), ("b", vNum 1)])]) "a"
      = .ok (setPieces (vNum 1) "b" (vObj [("x", vNum 9)]) []).1 ∧
    jsGet (vObj [("a", vObj [("x", vNum 9), ("b", vNum 1)])]) "zz"
      = jsGet (vObj [("a", vObj [("x", vNum 9)])]) "zz" := by
  have h := C10_no_overwrite (vNum 1) "b" "a" [] (vObj [("a", vObj [("x", vNum 9)])])
      (vObj [("x", vNum 9)]) (vObj [("a", vObj [("x", vNum 9), ("b", vNum 1)])]) rfl rfl
  exact ⟨(h.1 rfl).1, h.2.2 _ rfl "zz" (by decide)⟩

/-- Interleave the separator back between the split pieces; the inverse of
`splitOnChar`. -/
def joinSep (sep : Char) : List String → List Char
  | [] => []
  | [s] => s.toList
  | s :: rest => s.toList ++ sep :: joinSep sep rest

lemma replaceFirstChar_not_mem (l : List Char) (c d : Char) (h : c ∉ l) :
    replaceFirstChar l c d = l := by
  induction l with
  | nil => rfl
  | cons x xs ih =>
      have hx : x ≠ c := fun he => h (he ▸ List.mem_cons_self x xs)
      simp only [replaceFirstChar, if_neg hx]
      rw [ih (fun hm => h (List.mem_cons_of_mem x hm))]

lemma replaceFirstChar_append (a b : List Char) (c d : Char) (h : c ∉ a) :
    replaceFirstChar (a ++ c :: b) c d = a ++ d :: b := by
  induction a with
  | nil => simp [replaceFirstChar]
  | cons x xs ih =>
      have hx : x ≠ c := fun he => h (he ▸ List.mem_cons_self x xs)
      simp only [List.cons_append, replaceFirstChar, if_neg hx]
      exact congrArg (List.cons x) (ih (fun hm => h (List.mem_cons_of_mem x hm)))

lemma removeFirstChar_not_mem (l : List Char) (c : Char) (h : c ∉ l) :
    removeFirstChar l c = l := by
  induction l with
  | nil => rfl
  | cons x xs ih =>
      have hx : x ≠ c := fun he => h (he ▸ List.mem_cons_self x xs)
      simp only [removeFirstChar, if_neg hx]
      rw [ih (fun hm => h (List.mem_cons_of_mem x hm))]

lemma removeFirstChar_append (a b : List Char) (c : Char) (h : c ∉ a) :
    removeFirstChar (a ++ c :: b) c = a ++ b := by
  induction a with
  | nil => simp [removeFirstChar]
  | cons x xs ih =>
      have hx : x ≠ c := fun he => h (he ▸ List.mem_cons_self x xs)
      simp only [List.cons_append, removeFirstChar, if_neg hx]
      exact congrArg (List.cons x) (ih (fun hm => h (List.mem_cons_of_mem x hm)))

lemma splitOnChar_cons_self (cs : List Char) (sep : Char) :
    splitOnChar (sep :: cs) sep = "" :: splitOnChar cs sep := by
  rw [splitOnChar.eq_def]
  simp

lemma splitOnChar_cons_ne (c : Char) (cs : List Char) (sep : Char) (h : c ≠ sep) :
    splitOnChar (c :: cs) sep
      = (match splitOnChar cs sep with
         | [] => [String.mk [c]]
         | s :: rest => String.mk (c :: s.toList) :: rest) := by
  rw [splitOnChar.eq_def]
  simp [h]

lemma join_splitOnChar (l : List Char) (sep : Char) :
    joinSep sep (splitOnChar l sep) = l := by
  induction l with
  | nil => rfl
  | cons c cs ih =>
      by_cases h : c = sep
      · subst h
        rw [splitOnChar_cons_self]
        cases hxs : splitOnChar cs c with
        | nil => exact absurd hxs (splitOnChar_ne_nil cs c)
        | cons s t =>
            rw [hxs] at ih
            simp only [joinSep, String.toList] at ih ⊢
            simpa using ih
      · rw [splitOnChar_cons_ne c cs sep h]
        cases hxs : splitOnChar cs sep with
        | nil => exact absurd hxs (splitOnChar_ne_nil cs sep)
        | cons s t =>
            rw [hxs] at ih
            dsimp only
            cases t with
            | nil =>
                simp only [joinSep, String.toList] at ih ⊢
                rw [ih]
            | cons r t2 =>
                simp only [joinSep, String.toList, List.cons_append] at ih ⊢
                rw [ih]

lemma splitOnChar_not_mem (l : List Char) (sep : Char) :
    ∀ s ∈ splitOnChar l sep, sep ∉ s.toList := by
  induction l with
  | nil =>
      intro s hs
      simp only [splitOnChar, List.mem_singleton] at hs
      subst hs
      simp [String.toList]
  | cons c cs ih =>
      intro s hs
      by_cases h : c = sep
      · subst h
        rw [splitOnChar_cons_self] at hs
        rcases List.mem_cons.mp hs with hseq | hs2
        · subst hseq
          simp [String.toList]
        · exact ih s hs2
      · rw [splitOnChar_cons_ne c cs sep h] at hs
        cases hxs : splitOnChar cs sep with
        | nil => exact absurd hxs (splitOnChar_ne_nil cs sep)
        | cons s0 t =>
            rw [hxs] at hs
            dsimp only at hs
            rcases List.mem_cons.mp hs with hseq | hs2
            · subst hseq
              intro hmem
              simp only [String.toList, List.mem_cons] at hmem
              rcases hmem with hceq | hmem
              · exact h hceq.symm
              · exact ih s0 (hxs ▸ List.mem_cons_self s0 t) (by simpa [String.toList] using hmem)
            · exact ih s (hxs ▸ List.mem_cons_of_mem s0 hs2)

/-- C8.  Path parsing: `generatePathPieces` replaces only the first `[` by
the separator and removes only the first `]` (characterized both when the
bracket is absent and when it is present), then splits on the separator;
the split loses nothing — joining the pieces with the separator recovers
the normalized character sequence, so empty steps from consecutive or
trailing separators are preserved — and no piece contains the separator.
The parser is a total (hence pure) Lean function: it succeeds on every
string input. -/
theorem C8_parsing (p : String) (sep : Char) :
    generatePathPieces p sep
      = splitOnChar (removeFirstChar (replaceFirstChar p.toList '[' sep) ']') sep ∧
    ('[' ∉ p.toList → replaceFirstChar p.toList '[' sep = p.toList) ∧
    (∀ a b, p.toList = a ++ '[' :: b → '[' ∉ a →
        replaceFirstChar p.toList '[' sep = a ++ sep :: b) ∧
    (']' ∉ replaceFirstChar p.toList '[' sep →
        removeFirstChar (replaceFirstChar p.toList '[' sep) ']'
          = replaceFirstChar p.toList '[' sep) ∧
    (∀ a b, replaceFirstChar p.toList '[' sep = a ++ ']' :: b → ']' ∉ a →
        removeFirstChar (replaceFirstChar p.toList '[' sep) ']' = a ++ b) ∧
    joinSep sep (generatePathPieces p sep)
      = removeFirstChar (replaceFirstChar p.toList '[' sep) ']' ∧
    (∀ s ∈ generatePathPieces p sep, sep ∉ s.toList) := by
  refine ⟨rfl, fun h => replaceFirstChar_not_mem _ _ _ h, ?_,
    fun h => removeFirstChar_not_mem _ _ h, ?_,
    join_splitOnChar _ _, splitOnChar_not_mem _ _⟩
  · intro a b hab ha
    rw [hab]
    exact replaceFirstChar_append a b _ _ ha
  · intro a b hab ha
    rw [hab]
    exact removeFirstChar_append a b _ ha

/-- C8 witness: the parsing theorem at `"a[0].b"` with separator `'.'`:
the first `[` becomes the separator, the first `]` is removed, and the
split/join round-trip holds. -/
theorem C8_parsing_witness :
    replaceFirstChar ("a[0].b").toList '[' '.' = ("a").toList ++ '.' :: ("0].b").toList ∧
    joinSep '.' (generatePathPieces "a[0].b" '.')
      = removeFirstChar (replaceFirstChar ("a[0].b").toList '[' '.') ']' ∧
    generatePathPieces "a[0].b" '.' = ["a", "0", "b"] := by
  refine ⟨?_, (C8_parsing "a[0].b" '.').2.2.2.2.2.1, by decide⟩
  exact (C8_parsing "a[0].b" '.').2.2.1 ("a").toList ("0].b").toList (by decide) (by decide)
